import Mathlib

/-!
Verification of the Lattice-to-MIDI Translation Engine of `lattice-board`.

Shallow embedding conventions:
* Rust `f32` arithmetic is embedded as exact rational (`ℚ`) arithmetic.
  All float constants appearing in the code (697.0, 700.0, 1200.0, 8192.0, …)
  are exactly representable in `f32`, and the claims under study are about the
  structure of the computations, so the exact model is the intended reading.
* Rust saturating float-to-integer casts (`as u8`, `as u16`) are modelled by
  `rust_f32_as_u8` / `rust_f32_as_u16`: truncation toward zero followed by
  saturation to the integer type's range.
* `wmidi::Channel` (16 values `Ch1 … Ch16`) is modelled as `Fin 16`, holding
  the 0-based index used by the firmware (`Ch1 ↔ 0`, …, `Ch16 ↔ 15`).
* `wmidi::Note::try_from (n : u8)` succeeds exactly for `n ≤ 127`; it is
  modelled by `tryNoteFrom`.
* `heapless::Vec<T, N>` is modelled as `List T` together with the capacity
  check performed by `push` (`push16`) and the exact semantics of
  `swap_remove` (move the last element into the removed slot).
* `i8`/`i16` lattice arithmetic is modelled on `ℤ`; on the `i8` input range
  used by the firmware the `i16` intermediate computations cannot overflow,
  so the `ℤ` model is exact.  `div_euclid` / `rem_euclid` are `Int`'s `/`
  and `%` (Euclidean division).
* Global mutable state (tuning mode, fifth size, pitch-bend range, allocator,
  active-channel map) is gathered in an explicit `EngineState` record that is
  threaded through `get_midi_event`.
-/

/-- Lattice coordinate (`Coordinate { x: i8, y: i8 }` in
`firmware/core/src/layout.rs`). -/
structure Coordinate where
  x : ℤ
  y : ℤ
deriving DecidableEq, Repr

/-- Constant `PITCH_ANCHOR_CENTS` from `tuning.rs`. -/
def PITCH_ANCHOR_CENTS : ℚ := 6000

/-- Function `calculate_fifths_offsets` from `tuning.rs`, with the layout's center
coordinate passed explicitly.  Returns `(octaves, fifths)`. -/
def calculate_fifths_offsets (center coord : Coordinate) : ℤ × ℤ :=
  let dx_raw : ℤ := coord.x - center.x
  let dy_raw : ℤ := coord.y - center.y
  let octaves : ℤ := (-dy_raw) / 2
  let shift : ℤ := (-dy_raw) % 2
  let fifths : ℤ := 2 * dx_raw - 2 * octaves - shift
  (octaves, fifths)

/-- Function `get_key_pitch` from `tuning.rs`, with the center coordinate and the
current `FIFTH_SIZE` passed explicitly. -/
def get_key_pitch (center : Coordinate) (fifth_size : ℚ) (coord : Coordinate) : ℚ :=
  let p := calculate_fifths_offsets center coord
  PITCH_ANCHOR_CENTS + (p.1 : ℚ) * 1200 + (p.2 : ℚ) * fifth_size
    - ((p.2 / 2 : ℤ) : ℚ) * 1200

/-- Rust `f32 as u8`: truncate toward zero, saturating to `[0, 255]`. -/
def rust_f32_as_u8 (q : ℚ) : ℕ :=
  if q < 0 then 0 else min 255 ⌊q⌋.toNat

/-- Rust `f32 as u16`: truncate toward zero, saturating to `[0, 65535]`. -/
def rust_f32_as_u16 (q : ℚ) : ℕ :=
  if q < 0 then 0 else min 65535 ⌊q⌋.toNat

/-- Rust `f32::clamp(lo, hi)` (no NaN in the rational model). -/
def qclamp (q lo hi : ℚ) : ℚ := min (max q lo) hi

/-- The note-number computation shared by every Standard-mode path of
`get_midi_event`: `((target_cents / 100.0 + 0.5) as u8).clamp(0, 127)`. -/
def note_from_cents (target_cents : ℚ) : ℕ :=
  min (rust_f32_as_u8 (target_cents / 100 + 1 / 2)) 127

/-- The pitch-bend computation of the Standard/MPE press path:
`bend_cents = target_cents - midi_note*100`,
`bend_val = ((8192.0 + (bend_cents/100.0)*(8192.0/mpe_pbr)).clamp(0.0, 16383.0)) as u16`. -/
def mpe_bend_val (mpe_pbr target_cents : ℚ) : ℕ :=
  let midi_note := note_from_cents target_cents
  let bend_cents := target_cents - (midi_note : ℚ) * 100
  let bend_units_offset := (bend_cents / 100) * (8192 / mpe_pbr)
  rust_f32_as_u16 (qclamp (8192 + bend_units_offset) 0 16383)

/-- Type `wmidi::Channel`, as its 0-based index (`Ch1 ↔ 0`, …, `Ch16 ↔ 15`). -/
abbrev Channel := Fin 16

/-- Function `index_to_channel` from `midi.rs`. -/
def index_to_channel (idx : ℕ) : Option Channel :=
  if h : idx < 16 then some ⟨idx, h⟩ else none

/-- Conversion `wmidi::Note::try_from (n : u8)`: succeeds exactly for `n ≤ 127`. -/
def tryNoteFrom (n : ℕ) : Option ℕ :=
  if n ≤ 127 then some n else none

/-- The MPE channel allocator from `mpe.rs`: a 16-bit usage mask,
bit `i` (for `i ∈ 1..15`) standing for channel index `i` (MIDI channel
`i+1`). -/
structure MpeVoiceAllocator where
  usage_mask : ℕ
deriving DecidableEq, Repr

namespace MpeVoiceAllocator

/-- Constructor `MpeVoiceAllocator::new()`. -/
def new : MpeVoiceAllocator := ⟨0⟩

/-- The scanning loop of `alloc`: starting at index `i`, return the first
index `< 16` whose bit is unset in `mask`.  The structural `fuel` argument
(16 at the top-level call, an upper bound on the remaining iterations)
only makes the recursion structural; it never cuts the loop short. -/
def allocFrom (mask : ℕ) : ℕ → ℕ → Option Channel
  | 0, _ => none
  | fuel + 1, i =>
    if h : i < 16 then
      if mask &&& (1 <<< i) == 0 then some ⟨i, h⟩
      else allocFrom mask fuel (i + 1)
    else none

/-- Method `MpeVoiceAllocator::alloc`: scan indices `1..15` ascending, take the
first free one, set its bit. -/
def alloc (a : MpeVoiceAllocator) : Option Channel × MpeVoiceAllocator :=
  match allocFrom a.usage_mask 16 1 with
  | some c => (some c, ⟨a.usage_mask ||| (1 <<< c.val)⟩)
  | none => (none, a)

/-- Method `MpeVoiceAllocator::free`: clear the channel's bit, except for channel
index 0 (MIDI channel 1), which is never touched.  `!(1 << i)` on `u16` is
`65535 ^^^ (1 <<< i)`. -/
def free (a : MpeVoiceAllocator) (c : Channel) : MpeVoiceAllocator :=
  if 0 < c.val then ⟨a.usage_mask &&& (65535 ^^^ (1 <<< c.val))⟩ else a

end MpeVoiceAllocator

/-- Enum `TuningMode` from `tuning.rs`. -/
inductive TuningMode where
  | Standard
  | Fifths
deriving DecidableEq, Repr

/-- Enum `MidiEvent` from `midi.rs`. -/
inductive MidiEvent where
  | noteOn (channel : Channel) (note : ℕ) (velocity : ℕ)
  | noteOff (channel : Channel) (note : ℕ) (velocity : ℕ)
  | pitchBendChange (channel : Channel) (value : ℕ)
  | mpeNoteOn (channel : Channel) (note : ℕ) (velocity : ℕ) (pitch_bend : ℕ)
deriving DecidableEq, Repr

/-- The shared mutable state consulted and updated by `get_midi_event`:
the tuning mode, `FIFTH_SIZE`, `MPE_PBR`, `MPE_ALLOCATOR` and
`ACTIVE_CHANNELS` statics of `tuning.rs`. -/
structure EngineState where
  mode : TuningMode
  fifth_size : ℚ
  mpe_pbr : ℚ
  allocator : MpeVoiceAllocator
  active_channels : List (Coordinate × Channel)
deriving DecidableEq, Repr

/-- The power-up state of the statics in `tuning.rs`. -/
def initState : EngineState :=
  { mode := TuningMode.Fifths
    fifth_size := 697
    mpe_pbr := 1
    allocator := MpeVoiceAllocator.new
    active_channels := [] }

/-- Operation `heapless::Vec::push` on the capacity-16 `ACTIVE_CHANNELS` vector
(the `Err` result is discarded by the firmware). -/
def push16 (l : List (Coordinate × Channel)) (e : Coordinate × Channel) :
    List (Coordinate × Channel) :=
  if l.length < 16 then l ++ [e] else l

/-- Operation `heapless::Vec::swap_remove i`: return element `i` and the vector with
the last element moved into slot `i`. -/
def swap_remove {α : Type _} (l : List α) (i : ℕ) (h : i < l.length) :
    α × List α :=
  (l.get ⟨i, h⟩,
   (l.set i (l.getLast (List.ne_nil_of_length_pos (Nat.lt_of_le_of_lt (Nat.zero_le i) h)))).dropLast)

/-- The release-path lookup of `get_midi_event`: find the first
`ACTIVE_CHANNELS` entry for `coord` and `swap_remove` it. -/
def find_active (coord : Coordinate) (l : List (Coordinate × Channel)) :
    Option ((Coordinate × Channel) × List (Coordinate × Channel)) :=
  if h : l.findIdx (fun e => e.1 = coord) < l.length then
    some (swap_remove l (l.findIdx (fun e => e.1 = coord)) h)
  else none

/-- Function `get_midi_event` from `tuning.rs`, with the layout's center coordinate
and the shared state passed and returned explicitly. -/
def get_midi_event (center : Coordinate) (s : EngineState) (coord : Coordinate)
    (velocity : ℕ) (is_note_on : Bool) : Option MidiEvent × EngineState :=
  match s.mode with
  | TuningMode.Standard =>
    if is_note_on then
      let target_cents := get_key_pitch center s.fifth_size coord
      if s.fifth_size = 700 then
        let midi_note := note_from_cents target_cents
        match tryNoteFrom midi_note with
        | some note => (some (MidiEvent.noteOn 0 note velocity), s)
        | none => (none, s)
      else
        match s.allocator.alloc with
        | (some channel, alloc') =>
          let active' := push16 s.active_channels (coord, channel)
          let midi_note := note_from_cents target_cents
          let bend_val := mpe_bend_val s.mpe_pbr target_cents
          match tryNoteFrom midi_note with
          | some note =>
            (some (MidiEvent.mpeNoteOn channel note velocity bend_val),
             { s with allocator := alloc', active_channels := active' })
          | none =>
            (none,
             { s with allocator := alloc'.free channel,
                      active_channels := active'.dropLast })
        | (none, _) => (none, s)
    else
      match find_active coord s.active_channels with
      | some ((_, channel), active') =>
        let s' := { s with allocator := s.allocator.free channel,
                           active_channels := active' }
        let target_cents := get_key_pitch center s.fifth_size coord
        let midi_note := note_from_cents target_cents
        match tryNoteFrom midi_note with
        | some note => (some (MidiEvent.noteOff channel note velocity), s')
        | none => (none, s')
      | none =>
        if s.fifth_size = 700 then
          let target_cents := get_key_pitch center s.fifth_size coord
          let midi_note := note_from_cents target_cents
          match tryNoteFrom midi_note with
          | some note => (some (MidiEvent.noteOff 0 note velocity), s)
          | none => (none, s)
        else (none, s)
  | TuningMode.Fifths =>
    let p := calculate_fifths_offsets center coord
    let ch_idx : ℕ := (min (max (4 + p.1) 0) 15).toNat
    let pitch_idx : ℕ := (min (max (60 + p.2) 0) 127).toNat
    match tryNoteFrom pitch_idx with
    | some note =>
      let channel := (index_to_channel ch_idx).getD 0
      if is_note_on then (some (MidiEvent.noteOn channel note velocity), s)
      else (some (MidiEvent.noteOff channel note velocity), s)
    | none => (none, s)

/-! ## MIDI transport (`midi.rs`) -/

/-- The `wmidi::MidiMessage` shapes handled by the transport.  All message
kinds ignored by `process_remote_midi` are folded into `other`. -/
inductive MidiMessage where
  | noteOff (channel : Channel) (note : ℕ) (velocity : ℕ)
  | noteOn (channel : Channel) (note : ℕ) (velocity : ℕ)
  | pitchBendChange (channel : Channel) (bend : ℕ)
  | controlChange (channel : Channel) (cc : ℕ) (value : ℕ)
  | other
deriving DecidableEq, Repr

/-- The outbound encoder: the sequence of MIDI messages the send loop of
`midi_task` transmits for one dequeued `MidiEvent`.  `u16::clamp(0, 16383)`
is `min · 16383`. -/
def encode_event : MidiEvent → List MidiMessage
  | MidiEvent.noteOn ch note vel =>
    [MidiMessage.pitchBendChange ch 8192, MidiMessage.noteOn ch note vel]
  | MidiEvent.noteOff ch note vel => [MidiMessage.noteOff ch note vel]
  | MidiEvent.pitchBendChange ch value =>
    [MidiMessage.pitchBendChange ch (min value 16383)]
  | MidiEvent.mpeNoteOn ch note vel pb =>
    [MidiMessage.pitchBendChange ch (min pb 16383), MidiMessage.noteOn ch note vel]

/-- Struct `RemoteVoice` from `midi.rs`. -/
structure RemoteVoice where
  channel : Channel
  note : ℕ
  velocity : ℕ
  pitch_bend : ℕ
deriving DecidableEq, Repr

/-- The inbound state of `midi.rs`: the `REMOTE_VOICES` ledger (capacity 32)
and the `CHANNEL_BENDS` table. -/
structure RemoteState where
  voices : List RemoteVoice
  bends : Channel → ℕ

/-- Power-up values of `REMOTE_VOICES` and `CHANNEL_BENDS`. -/
def initRemote : RemoteState := ⟨[], fun _ => 8192⟩

/-- Pattern `iter_mut().find(p)` followed by an in-place mutation `f`: rewrite the
first element satisfying `p`. -/
def update_first (p : RemoteVoice → Bool) (f : RemoteVoice → RemoteVoice) :
    List RemoteVoice → List RemoteVoice
  | [] => []
  | v :: rest => if p v then f v :: rest else v :: update_first p f rest

/-- Function `process_remote_midi` from `midi.rs`. -/
def process_remote_midi (m : MidiMessage) (s : RemoteState) : RemoteState :=
  match m with
  | MidiMessage.noteOn ch note vel =>
    if 0 < vel then
      let initial_bend := s.bends ch
      let p : RemoteVoice → Bool := fun v => v.channel == ch && v.note == note
      if s.voices.any p then
        let upd : RemoteVoice → RemoteVoice :=
          fun v => { v with velocity := vel, pitch_bend := initial_bend }
        { s with voices := update_first p upd s.voices }
      else
        { s with voices :=
            if s.voices.length < 32 then
              s.voices ++ [⟨ch, note, vel, initial_bend⟩]
            else s.voices }
    else
      { s with voices :=
          s.voices.filter fun v => !(v.channel == ch && v.note == note) }
  | MidiMessage.noteOff ch note _ =>
    { s with voices :=
        s.voices.filter fun v => !(v.channel == ch && v.note == note) }
  | MidiMessage.pitchBendChange ch bend =>
    { voices :=
        s.voices.map fun v =>
          if v.channel == ch then { v with pitch_bend := bend } else v
      bends := fun j => if j = ch then bend else s.bends j }
  | MidiMessage.controlChange _ cc _ =>
    if cc == 120 || cc == 123 then { s with voices := [] } else s
  | MidiMessage.other => s

/-! ## Further definitions: tunable mutations, step relations, scenario states -/

/-- Function `toggle_mode` from `tuning.rs` (the mode transition it applies). -/
def toggle_mode : TuningMode → TuningMode
  | TuningMode.Standard => TuningMode.Fifths
  | TuningMode.Fifths => TuningMode.Standard

/-- Function `adjust_fifth_size` from `tuning.rs`:
`(current + delta).max(600.0).min(800.0)`. -/
def adjust_fifth_size (current delta : ℚ) : ℚ :=
  min (max (current + delta) 600) 800

/-- Function `adjust_mpe_pbr` from `tuning.rs`: `(current + delta).max(0.1).min(96.0)`. -/
def adjust_mpe_pbr (current delta : ℚ) : ℚ :=
  min (max (current + delta) (1 / 10)) 96

/-- Iterated allocation: `n` successive `alloc()` calls, collecting the results. -/
def alloc_iterate : ℕ → MpeVoiceAllocator → List (Option Channel) × MpeVoiceAllocator
  | 0, a => ([], a)
  | n + 1, a =>
    let r := a.alloc
    let rest := alloc_iterate n r.2
    (r.1 :: rest.1, rest.2)

/-- One step of the system as the spec's claim quantifies it: a
`get_midi_event` press or release with any arguments, a direct allocator
`alloc()` or `free()`, or a tunable mutation. -/
inductive EngineStep (center : Coordinate) : EngineState → EngineState → Prop where
  | press (s : EngineState) (coord : Coordinate) (vel : ℕ) :
      EngineStep center s (get_midi_event center s coord vel true).2
  | release (s : EngineState) (coord : Coordinate) (vel : ℕ) :
      EngineStep center s (get_midi_event center s coord vel false).2
  | toggle (s : EngineState) :
      EngineStep center s { s with mode := toggle_mode s.mode }
  | adjust_fifth (s : EngineState) (delta : ℚ) :
      EngineStep center s { s with fifth_size := adjust_fifth_size s.fifth_size delta }
  | adjust_pbr (s : EngineState) (delta : ℚ) :
      EngineStep center s { s with mpe_pbr := adjust_mpe_pbr s.mpe_pbr delta }
  | alloc_op (s : EngineState) :
      EngineStep center s { s with allocator := s.allocator.alloc.2 }
  | free_op (s : EngineState) (c : Channel) :
      EngineStep center s { s with allocator := s.allocator.free c }

/-- States reachable from power-up under `EngineStep`. -/
inductive Reachable (center : Coordinate) : EngineState → Prop where
  | init : Reachable center initState
  | step {s s' : EngineState} : Reachable center s → EngineStep center s s' →
      Reachable center s'

/-- The restricted step relation of the amended ledger-invariant claim:
as `EngineStep`, but a press is only taken for a coordinate that has no
entry in the ledger yet (each key sends alternating edges), and direct
`free()` calls (which can unmark a channel still referenced by the
ledger) are excluded. -/
inductive GoodStep (center : Coordinate) : EngineState → EngineState → Prop where
  | press (s : EngineState) (coord : Coordinate) (vel : ℕ)
      (hfresh : ∀ e ∈ s.active_channels, e.1 ≠ coord) :
      GoodStep center s (get_midi_event center s coord vel true).2
  | release (s : EngineState) (coord : Coordinate) (vel : ℕ) :
      GoodStep center s (get_midi_event center s coord vel false).2
  | toggle (s : EngineState) :
      GoodStep center s { s with mode := toggle_mode s.mode }
  | adjust_fifth (s : EngineState) (delta : ℚ) :
      GoodStep center s { s with fifth_size := adjust_fifth_size s.fifth_size delta }
  | adjust_pbr (s : EngineState) (delta : ℚ) :
      GoodStep center s { s with mpe_pbr := adjust_mpe_pbr s.mpe_pbr delta }
  | alloc_op (s : EngineState) :
      GoodStep center s { s with allocator := s.allocator.alloc.2 }

/-- States reachable from power-up under `GoodStep`. -/
inductive GoodReachable (center : Coordinate) : EngineState → Prop where
  | init : GoodReachable center initState
  | step {s s' : EngineState} : GoodReachable center s → GoodStep center s s' →
      GoodReachable center s'

/-- The Active-Voice Ledger invariant: coordinates are pairwise distinct,
channels are pairwise distinct, and every entry holds a non-master channel
whose usage bit is set. -/
def EngineInv (s : EngineState) : Prop :=
  (s.active_channels.map Prod.fst).Nodup ∧
  (s.active_channels.map Prod.snd).Nodup ∧
  ∀ e ∈ s.active_channels,
    1 ≤ e.2.val ∧ s.allocator.usage_mask.testBit e.2.val = true

/-- The coordinate `(0, 0)`. -/
def originC : Coordinate := ⟨0, 0⟩

/-- A Standard-mode state with `fifth_size = 700` (pure 12-TET) and
everything else at power-up values. -/
def std700State : EngineState :=
  { mode := TuningMode.Standard
    fifth_size := 700
    mpe_pbr := 1
    allocator := MpeVoiceAllocator.new
    active_channels := [] }

/-- A Standard-mode state with the default microtonal `fifth_size = 697`
and a clean allocator/ledger (the state right after toggling the mode at
power-up). -/
def stdMpeState : EngineState :=
  { mode := TuningMode.Standard
    fifth_size := 697
    mpe_pbr := 1
    allocator := MpeVoiceAllocator.new
    active_channels := [] }

/-- A Standard/microtonal state in which `originC` already has a ledger
entry on channel index 1 while channel bit 1 is held:  the starting state
of the C1 counterexample. -/
def c1CexState : EngineState :=
  { mode := TuningMode.Standard
    fifth_size := 697
    mpe_pbr := 1
    allocator := ⟨2⟩
    active_channels := [(originC, 1)] }

/-- A Standard/microtonal state whose 15 MPE channels are all held. -/
def fullMaskState : EngineState :=
  { mode := TuningMode.Standard
    fifth_size := 697
    mpe_pbr := 1
    allocator := ⟨65534⟩
    active_channels := [] }

/-- The state reached from power-up by `toggle_mode` and then two presses
of `originC`: the C2 counterexample state. -/
def c2CexState : EngineState :=
  { mode := TuningMode.Standard
    fifth_size := 697
    mpe_pbr := 1
    allocator := ⟨6⟩
    active_channels := [(originC, 1), (originC, 2)] }

/-! ## Helper lemmas: bit operations -/

theorem testBit_lor_shift (m i j : ℕ) :
    (m ||| 1 <<< i).testBit j = (m.testBit j || decide (i = j)) := by
  rw [Nat.testBit_lor, Nat.shiftLeft_eq, Nat.one_mul, Nat.testBit_two_pow]

theorem and_shift_eq_zero_iff (m i : ℕ) :
    (m &&& (1 <<< i) = 0) ↔ m.testBit i = false := by
  rw [Nat.shiftLeft_eq, Nat.one_mul, Nat.and_two_pow]
  rcases h : m.testBit i with _ | _ <;>
    simp [h, Nat.pos_iff_ne_zero, Nat.pow_eq_zero]

theorem testBit_clear_shift (m i j : ℕ) :
    (m &&& (65535 ^^^ (1 <<< i))).testBit j =
      (m.testBit j && (decide (j < 16) ^^ decide (i = j))) := by
  have h65535 : (65535 : ℕ) = 2 ^ 16 - 1 := by norm_num
  rw [Nat.testBit_land, Nat.testBit_xor, h65535, Nat.testBit_two_pow_sub_one,
    Nat.shiftLeft_eq, Nat.one_mul, Nat.testBit_two_pow]

/-! ## Helper lemmas: allocator -/

namespace MpeVoiceAllocator

theorem testBit_true_of_taken {mask k : ℕ}
    (h : ¬(mask &&& 1 <<< k == 0) = true) : mask.testBit k = true := by
  rcases hb : mask.testBit k with _ | _
  · exact absurd (beq_iff_eq.mpr ((and_shift_eq_zero_iff mask k).mpr hb)) h
  · rfl

theorem allocFrom_eq_some {mask : ℕ} :
    ∀ {fuel i : ℕ} {c : Channel}, allocFrom mask fuel i = some c →
      i ≤ c.val ∧ mask.testBit c.val = false ∧
        ∀ j, i ≤ j → j < c.val → mask.testBit j = true := by
  intro fuel
  induction fuel with
  | zero => intro i c h; cases h
  | succ fuel ih =>
    intro i c h
    unfold allocFrom at h
    split at h
    · split at h
      · rename_i hfree
        cases h
        refine ⟨le_refl _, ?_,
          fun j h1 h2 => absurd (lt_of_le_of_lt h1 h2) (lt_irrefl _)⟩
        exact (and_shift_eq_zero_iff mask i).mp (eq_of_beq hfree)
      · rename_i htaken
        obtain ⟨h1, h2, h3⟩ := ih h
        refine ⟨le_trans (Nat.le_succ i) h1, h2, fun j hj1 hj2 => ?_⟩
        rcases Nat.eq_or_lt_of_le hj1 with heq | hlt
        · rw [← heq]
          exact testBit_true_of_taken htaken
        · exact h3 j hlt hj2
    · cases h

theorem allocFrom_eq_none {mask : ℕ} :
    ∀ {fuel i : ℕ}, allocFrom mask fuel i = none → 16 ≤ fuel + i →
      ∀ j, i ≤ j → j < 16 → mask.testBit j = true := by
  intro fuel
  induction fuel with
  | zero => intro i _ hfi j hj1 hj2; omega
  | succ fuel ih =>
    intro i h hfi j hj1 hj2
    unfold allocFrom at h
    split at h
    · split at h
      · cases h
      · rename_i htaken
        rcases Nat.eq_or_lt_of_le hj1 with heq | hlt
        · rw [← heq]
          exact testBit_true_of_taken htaken
        · exact ih h (by omega) j hlt hj2
    · rename_i hi
      exact absurd (lt_of_le_of_lt hj1 hj2) (by omega)

theorem allocFrom_isSome {mask fuel i : ℕ} (j : ℕ) (hfi : 16 ≤ fuel + i)
    (hij : i ≤ j) (hj : j < 16) (hfree : mask.testBit j = false) :
    allocFrom mask fuel i ≠ none := by
  intro h
  rw [allocFrom_eq_none h hfi j hij hj] at hfree
  cases hfree

/-- Full specification of a successful `alloc`. -/
theorem alloc_eq_some {a a' : MpeVoiceAllocator} {c : Channel}
    (h : a.alloc = (some c, a')) :
    1 ≤ c.val ∧ a.usage_mask.testBit c.val = false ∧
      a'.usage_mask = a.usage_mask ||| (1 <<< c.val) ∧
      ∀ j, 1 ≤ j → j < c.val → a.usage_mask.testBit j = true := by
  unfold alloc at h
  split at h
  · rename_i c0 hc0
    obtain ⟨h1, h2, h3⟩ := allocFrom_eq_some hc0
    cases h
    exact ⟨h1, h2, rfl, h3⟩
  · cases h

theorem allocFrom_fuel_ok {mask fuel i : ℕ} (hfi : 16 ≤ fuel + i) :
    allocFrom mask fuel i = none ↔
      ∀ j, i ≤ j → j < 16 → mask.testBit j = true := by
  constructor
  · exact fun h => allocFrom_eq_none h hfi
  · intro hall
    rcases hres : allocFrom mask fuel i with _ | c
    · rfl
    · obtain ⟨h1, h2, _⟩ := allocFrom_eq_some hres
      rw [hall c.val h1 c.isLt] at h2
      cases h2

/-- A failed `alloc` leaves the allocator unchanged, and happens exactly
when every bit `1..15` is set. -/
theorem alloc_eq_none {a : MpeVoiceAllocator} {a' : MpeVoiceAllocator}
    (h : a.alloc = (none, a')) :
    a' = a ∧ ∀ j, 1 ≤ j → j < 16 → a.usage_mask.testBit j = true := by
  unfold alloc at h
  split at h
  · cases h
  · rename_i hnone
    cases h
    exact ⟨rfl, allocFrom_eq_none hnone (by omega)⟩

theorem alloc_of_all_taken {a : MpeVoiceAllocator}
    (h : ∀ j, 1 ≤ j → j < 16 → a.usage_mask.testBit j = true) :
    a.alloc = (none, a) := by
  unfold alloc
  rw [(allocFrom_fuel_ok (by omega)).mpr h]

theorem alloc_of_free_bit {a : MpeVoiceAllocator} (j : ℕ) (h1 : 1 ≤ j)
    (hj : j < 16) (hfree : a.usage_mask.testBit j = false) :
    ∃ c a', a.alloc = (some c, a') := by
  unfold alloc
  rcases hres : allocFrom a.usage_mask 16 1 with _ | c
  · exact absurd hres (allocFrom_isSome j (by omega) h1 hj hfree)
  · exact ⟨c, _, rfl⟩

theorem mk_usage_mask_eq {m m' : ℕ} (h : m = m') :
    (⟨m⟩ : MpeVoiceAllocator) = ⟨m'⟩ := by rw [h]

theorem usage_mask_mk (m : ℕ) : (⟨m⟩ : MpeVoiceAllocator).usage_mask = m := rfl

theorem eta (a : MpeVoiceAllocator) : (⟨a.usage_mask⟩ : MpeVoiceAllocator) = a := by
  cases a
  rfl

/-- Bits above 15 of a `u16` mask are clear. -/
theorem testBit_high {m j : ℕ} (hm : m < 65536) (hj : 16 ≤ j) :
    m.testBit j = false := by
  have h16 : (65536 : ℕ) = 2 ^ 16 := by norm_num
  exact Nat.testBit_eq_false_of_lt
    (lt_of_lt_of_le (h16 ▸ hm) (Nat.pow_le_pow_right (by norm_num) hj))

/-- Freeing channel index 0 (MIDI channel 1) is a no-op. -/
theorem free_ch1 (a : MpeVoiceAllocator) (c : Channel) (hc : c.val = 0) :
    a.free c = a := by
  unfold free
  simp [hc]

/-- Bit-level description of `free` on a nonzero channel index. -/
theorem free_testBit (a : MpeVoiceAllocator) (c : Channel) (j : ℕ)
    (hc : 0 < c.val) :
    ((a.free c).usage_mask).testBit j =
      (a.usage_mask.testBit j && (decide (j < 16) ^^ decide (c.val = j))) := by
  unfold free
  simp only [if_pos hc, usage_mask_mk]
  exact testBit_clear_shift _ _ _

/-- Freeing an already-free channel is a no-op (on a `u16` mask). -/
theorem free_already_free (a : MpeVoiceAllocator) (c : Channel)
    (hfree : a.usage_mask.testBit c.val = false) (hm : a.usage_mask < 65536) :
    a.free c = a := by
  rcases hc : c.val with _ | k
  · exact free_ch1 a c hc
  · have hcpos : 0 < c.val := by omega
    rw [← eta (a.free c), ← eta a]
    apply mk_usage_mask_eq
    apply Nat.eq_of_testBit_eq
    intro j
    rw [free_testBit a c j hcpos]
    by_cases hj16 : j < 16
    · by_cases hcj : c.val = j
      · rw [← hcj, hfree]
        simp
      · simp [hj16, hcj]
    · simp [hj16, testBit_high hm (le_of_not_lt hj16)]

/-- Allocating and then freeing the allocated channel restores the mask. -/
theorem free_alloc_restore (a : MpeVoiceAllocator) (c : Channel)
    (hc : 0 < c.val) (hfree : a.usage_mask.testBit c.val = false)
    (hm : a.usage_mask < 65536) :
    MpeVoiceAllocator.free ⟨a.usage_mask ||| (1 <<< c.val)⟩ c = a := by
  rw [← eta (MpeVoiceAllocator.free _ c)]
  conv_rhs => rw [← eta a]
  apply mk_usage_mask_eq
  apply Nat.eq_of_testBit_eq
  intro j
  rw [free_testBit _ c j hc, usage_mask_mk, testBit_lor_shift]
  by_cases hj16 : j < 16
  · by_cases hcj : c.val = j
    · rw [← hcj, hfree]
      simp [c.isLt]
    · simp [hj16, hcj]
  · have hc16 : c.val ≠ j := by
      have := c.isLt
      omega
    simp [hj16, hc16, testBit_high hm (le_of_not_lt hj16)]

end MpeVoiceAllocator

/-! ## Helper lemmas: lists and `swap_remove` -/

theorem set_get_self {α : Type _} :
    ∀ (l : List α) (i : ℕ) (h : i < l.length), l.set i (l.get ⟨i, h⟩) = l := by
  intro l
  induction l with
  | nil => intro i h; cases h
  | cons a l ih =>
    intro i h
    cases i with
    | zero => rfl
    | succ j =>
      have hj : j < l.length := by simpa using h
      have hg : (a :: l).get ⟨j + 1, h⟩ = l.get ⟨j, hj⟩ := rfl
      rw [List.set_cons_succ, hg, ih j hj]

theorem swap_remove_perm {α : Type _} :
    ∀ (l : List α) (i : ℕ) (h : i < l.length),
      (swap_remove l i h).2.Perm (l.eraseIdx i) := by
  intro l
  induction l with
  | nil => intro i h; cases h
  | cons a l ih =>
    intro i h
    cases i with
    | zero =>
      rcases List.eq_nil_or_concat l with rfl | ⟨L, b, rfl⟩
      · simp [swap_remove]
      · simp only [List.concat_eq_append, swap_remove, List.eraseIdx_cons_zero]
        have hne : (L ++ [b] : List α) ≠ [] := by simp
        have hlast : (a :: (L ++ [b])).getLast (by simp) = b := by
          rw [List.getLast_cons hne, List.getLast_concat]
        rw [hlast, List.set_cons_zero]
        have : (b :: (L ++ [b])).dropLast = b :: L := by
          rw [List.dropLast_cons_of_ne_nil hne, List.dropLast_concat]
        rw [this]
        exact (List.perm_append_singleton b L).symm
    | succ j =>
      have hj : j < l.length := by simpa using h
      have hlne : l ≠ [] := List.ne_nil_of_length_pos (by omega)
      simp only [swap_remove, List.set_cons_succ]
      have hlast : (a :: l).getLast (by simp) = l.getLast hlne :=
        List.getLast_cons hlne
      rw [hlast]
      have hsetne : l.set j (l.getLast hlne) ≠ [] := by
        apply List.ne_nil_of_length_pos
        rw [List.length_set]
        omega
      rw [List.dropLast_cons_of_ne_nil hsetne, List.eraseIdx_cons_succ]
      exact List.Perm.cons a (ih j hj)

theorem find_active_eq_some {coord : Coordinate}
    {l : List (Coordinate × Channel)}
    {pr : (Coordinate × Channel) × List (Coordinate × Channel)}
    (h : find_active coord l = some pr) :
    ∃ (i : ℕ) (hi : i < l.length),
      pr.1 = l.get ⟨i, hi⟩ ∧ pr.2.Perm (l.eraseIdx i) := by
  unfold find_active at h
  split at h
  · rename_i hi
    cases h
    exact ⟨_, hi, rfl, swap_remove_perm l _ hi⟩
  · cases h

theorem find_active_of_not_mem {coord : Coordinate}
    {l : List (Coordinate × Channel)} (h : ∀ x ∈ l, x.1 ≠ coord) :
    find_active coord l = none := by
  unfold find_active
  have : l.findIdx (fun e => e.1 = coord) = l.length :=
    List.findIdx_eq_length.mpr (fun x hx => by simp [h x hx])
  simp [this]

theorem find_active_concat {coord : Coordinate}
    {l : List (Coordinate × Channel)} (e : Coordinate × Channel)
    (hl : ∀ x ∈ l, x.1 ≠ coord) (he : e.1 = coord) :
    find_active coord (l ++ [e]) = some (e, l) := by
  unfold find_active
  have hfl : l.findIdx (fun x => x.1 = coord) = l.length :=
    List.findIdx_eq_length.mpr (fun x hx => by simp [hl x hx])
  have hidx : (l ++ [e]).findIdx (fun x => x.1 = coord) = l.length := by
    rw [List.findIdx_append, hfl]
    simp [List.findIdx_cons, he]
  have hlen : l.length < (l ++ [e]).length := by simp
  rw [hidx]
  rw [dif_pos hlen]
  unfold swap_remove
  have hget : (l ++ [e]).get ⟨l.length, hlen⟩ = e := by
    rw [List.get_eq_getElem]
    exact List.getElem_concat_length l e l.length rfl hlen
  have hlast : (l ++ [e]).getLast (List.ne_nil_of_length_pos
      (Nat.lt_of_le_of_lt (Nat.zero_le _) hlen)) = e := List.getLast_concat l
  rw [hlast, hget]
  have : (l ++ [e]).set l.length e = l ++ [e] := by
    have := set_get_self (l ++ [e]) l.length hlen
    rw [hget] at this
    exact this
  rw [this, List.dropLast_concat]

/-! ## Helper lemmas: note rounding and `get_midi_event` path unfolding -/

theorem note_from_cents_le (q : ℚ) : note_from_cents q ≤ 127 :=
  min_le_right _ _

theorem tryNoteFrom_note (q : ℚ) :
    tryNoteFrom (note_from_cents q) = some (note_from_cents q) := by
  unfold tryNoteFrom
  rw [if_pos (note_from_cents_le q)]

/-- The firmware's note computation agrees with `round(x) = floor(x/100 + 0.5)`
clamped to `[0, 127]`. -/
theorem note_from_cents_eq_round_clamp (q : ℚ) :
    (note_from_cents q : ℤ) = max 0 (min 127 ⌊q / 100 + 1 / 2⌋) := by
  unfold note_from_cents rust_f32_as_u8
  by_cases ht : q / 100 + 1 / 2 < 0
  · have hf : ⌊q / 100 + 1 / 2⌋ < 0 := by
      rcases lt_or_le ⌊q / 100 + 1 / 2⌋ 0 with h | h
      · exact h
      · exact absurd (Int.floor_nonneg.mp h) (not_le.mpr ht)
    rw [if_pos ht]
    simp only [Nat.zero_min, Nat.cast_zero]
    omega
  · have h0 : 0 ≤ ⌊q / 100 + 1 / 2⌋ := Int.floor_nonneg.mpr (not_lt.mp ht)
    rw [if_neg ht]
    push_cast [Int.toNat_of_nonneg h0]
    omega

theorem gme_std_press_12tet (center : Coordinate) (s : EngineState)
    (coord : Coordinate) (vel : ℕ) (hm : s.mode = TuningMode.Standard)
    (hfs : s.fifth_size = 700) :
    get_midi_event center s coord vel true =
      (some (MidiEvent.noteOn 0
        (note_from_cents (get_key_pitch center s.fifth_size coord)) vel), s) := by
  cases s
  dsimp at hm hfs
  subst hm
  simp [get_midi_event, hfs, tryNoteFrom_note]

theorem gme_std_press_mpe_some (center : Coordinate) (s : EngineState)
    (coord : Coordinate) (vel : ℕ) (channel : Channel)
    (alloc' : MpeVoiceAllocator) (hm : s.mode = TuningMode.Standard)
    (hfs : s.fifth_size ≠ 700)
    (halloc : s.allocator.alloc = (some channel, alloc')) :
    get_midi_event center s coord vel true =
      (some (MidiEvent.mpeNoteOn channel
        (note_from_cents (get_key_pitch center s.fifth_size coord)) vel
        (mpe_bend_val s.mpe_pbr (get_key_pitch center s.fifth_size coord))),
       { s with allocator := alloc',
                active_channels := push16 s.active_channels (coord, channel) }) := by
  cases s
  dsimp at hm hfs halloc
  subst hm
  simp [get_midi_event, hfs, halloc, tryNoteFrom_note]

theorem gme_std_press_mpe_none (center : Coordinate) (s : EngineState)
    (coord : Coordinate) (vel : ℕ) (a' : MpeVoiceAllocator)
    (hm : s.mode = TuningMode.Standard) (hfs : s.fifth_size ≠ 700)
    (halloc : s.allocator.alloc = (none, a')) :
    get_midi_event center s coord vel true = (none, s) := by
  cases s
  dsimp at hm hfs halloc
  subst hm
  simp [get_midi_event, hfs, halloc]

theorem gme_std_release_found (center : Coordinate) (s : EngineState)
    (coord : Coordinate) (vel : ℕ) (e : Coordinate × Channel)
    (l' : List (Coordinate × Channel)) (hm : s.mode = TuningMode.Standard)
    (hfind : find_active coord s.active_channels = some (e, l')) :
    get_midi_event center s coord vel false =
      (some (MidiEvent.noteOff e.2
        (note_from_cents (get_key_pitch center s.fifth_size coord)) vel),
       { s with allocator := s.allocator.free e.2, active_channels := l' }) := by
  cases s
  dsimp at hm hfind
  subst hm
  cases e
  simp [get_midi_event, hfind, tryNoteFrom_note]

theorem gme_std_release_notfound_700 (center : Coordinate) (s : EngineState)
    (coord : Coordinate) (vel : ℕ) (hm : s.mode = TuningMode.Standard)
    (hfind : find_active coord s.active_channels = none)
    (hfs : s.fifth_size = 700) :
    get_midi_event center s coord vel false =
      (some (MidiEvent.noteOff 0
        (note_from_cents (get_key_pitch center s.fifth_size coord)) vel), s) := by
  cases s
  dsimp at hm hfind hfs
  subst hm
  simp [get_midi_event, hfind, hfs, tryNoteFrom_note]

theorem gme_std_release_notfound_other (center : Coordinate) (s : EngineState)
    (coord : Coordinate) (vel : ℕ) (hm : s.mode = TuningMode.Standard)
    (hfind : find_active coord s.active_channels = none)
    (hfs : s.fifth_size ≠ 700) :
    get_midi_event center s coord vel false = (none, s) := by
  cases s
  dsimp at hm hfind hfs
  subst hm
  simp [get_midi_event, hfind, hfs]

theorem gme_fifths_state (center : Coordinate) (s : EngineState)
    (coord : Coordinate) (vel : ℕ) (b : Bool) (hm : s.mode = TuningMode.Fifths) :
    (get_midi_event center s coord vel b).2 = s := by
  cases s
  dsimp at hm
  subst hm
  rcases b with _ | _ <;>
    simp [get_midi_event, tryNoteFrom]

/-! ## Claims -/

/-- C6: the allocator contract.  `alloc()` scans bit indices 1..15 in
ascending order, returns the first free channel (index `i` is MIDI channel
`i+1`, so indices 1..15 are channels 2..16) and sets its bit, and returns
none when all 15 are set; 16 consecutive `alloc()` calls from the empty mask
return the 15 distinct channel indices 1..15 — never index 0 (channel 1) —
and then none; `free` clears exactly the channel's bit, and freeing channel 1
or an already-free channel leaves the mask unchanged; `free` followed by
`alloc` can return the same channel (lowest-free-index reuse, here channel
index 5 out of a full pool). -/
theorem C6_allocator_contract :
    (∀ (a a' : MpeVoiceAllocator) (c : Channel), a.alloc = (some c, a') →
      1 ≤ c.val ∧ a.usage_mask.testBit c.val = false ∧
      a'.usage_mask = a.usage_mask ||| (1 <<< c.val) ∧
      ∀ j, 1 ≤ j → j < c.val → a.usage_mask.testBit j = true) ∧
    (∀ a : MpeVoiceAllocator,
      (∀ j, 1 ≤ j → j < 16 → a.usage_mask.testBit j = true) →
        a.alloc = (none, a)) ∧
    ((alloc_iterate 16 MpeVoiceAllocator.new).1 =
      [some 1, some 2, some 3, some 4, some 5, some 6, some 7, some 8,
       some 9, some 10, some 11, some 12, some 13, some 14, some 15, none]) ∧
    (∀ (a : MpeVoiceAllocator) (c : Channel), c.val = 0 → a.free c = a) ∧
    (∀ (a : MpeVoiceAllocator) (c : Channel), 0 < c.val →
      (a.free c).usage_mask.testBit c.val = false ∧
      ∀ j, j < 16 → j ≠ c.val →
        (a.free c).usage_mask.testBit j = a.usage_mask.testBit j) ∧
    (∀ (a : MpeVoiceAllocator) (c : Channel), a.usage_mask < 65536 →
      a.usage_mask.testBit c.val = false → a.free c = a) ∧
    (((⟨65534⟩ : MpeVoiceAllocator).free 5).alloc.1 = some 5) := by
  refine ⟨?_, ?_, by decide, ?_, ?_, ?_, by decide⟩
  · intro a a' c h
    exact MpeVoiceAllocator.alloc_eq_some h
  · intro a h
    exact MpeVoiceAllocator.alloc_of_all_taken h
  · intro a c hc
    exact MpeVoiceAllocator.free_ch1 a c hc
  · intro a c hc
    constructor
    · rw [MpeVoiceAllocator.free_testBit a c c.val hc]
      simp [c.isLt]
    · intro j hj hne
      rw [MpeVoiceAllocator.free_testBit a c j hc]
      have : c.val ≠ j := fun heq => hne heq.symm
      simp [hj, this]
  · intro a c hm hfree
    exact MpeVoiceAllocator.free_already_free a c hfree hm

/-- C6 witness: freeing channel index 0 (MIDI channel 1) on the empty
allocator is a no-op. -/
theorem C6_witness : MpeVoiceAllocator.new.free 0 = MpeVoiceAllocator.new :=
  C6_allocator_contract.2.2.2.1 MpeVoiceAllocator.new 0 rfl

/-- The floor of an integer divided by two, in `ℚ`, is Euclidean integer
division by two. -/
theorem floor_int_div_two (n : ℤ) : ⌊((n : ℚ) / 2)⌋ = n / 2 := by
  have h := Rat.floor_intCast_div_natCast n 2
  push_cast at h
  exact h

/-- C4: `calculate_fifths_offsets` computes `octaves = floor(-dy / 2)`,
`shift = (-dy) mod 2` with a non-negative remainder below 2, and
`fifths = 2*dx - 2*octaves - shift`; and `get_key_pitch` equals
`6000 + octaves*1200 + fifths*fifth_size - floor(fifths/2)*1200` with floor
division, including for negative `fifths`. -/
theorem C4_offsets_and_pitch (center coord : Coordinate) (fifth_size : ℚ) :
    (calculate_fifths_offsets center coord).1 =
      ⌊((-(coord.y - center.y) : ℤ) : ℚ) / 2⌋ ∧
    (0 : ℤ) ≤ -(coord.y - center.y) % 2 ∧
    -(coord.y - center.y) % 2 < 2 ∧
    (calculate_fifths_offsets center coord).2 =
      2 * (coord.x - center.x) - 2 * (calculate_fifths_offsets center coord).1 -
        -(coord.y - center.y) % 2 ∧
    get_key_pitch center fifth_size coord =
      6000 + ((calculate_fifths_offsets center coord).1 : ℚ) * 1200 +
        ((calculate_fifths_offsets center coord).2 : ℚ) * fifth_size -
        (⌊((calculate_fifths_offsets center coord).2 : ℚ) / 2⌋ : ℚ) * 1200 := by
  refine ⟨?_, Int.emod_nonneg _ (by norm_num), Int.emod_lt_of_pos _ (by norm_num),
    rfl, ?_⟩
  · rw [floor_int_div_two]
    rfl
  · unfold get_key_pitch PITCH_ANCHOR_CENTS
    rw [floor_int_div_two]

/-- C5: in every Standard-mode path the MIDI note computed from
`target_cents` is `round(x) = floor(x/100 + 0.5)` clamped to `[0, 127]`
(`note_from_cents` is the note computation shared by all four Standard-mode
paths of `get_midi_event`); and with `fifth_size = 700` a press of the center
coordinate (`target_cents = 6000`) yields `NoteOn` channel 1 (index 0),
note 60, and a release of the same coordinate yields the matching
`NoteOff`. -/
theorem C5_note_rounding_and_anchor_scenario :
    (∀ q : ℚ, (note_from_cents q : ℤ) = max 0 (min 127 ⌊q / 100 + 1 / 2⌋)) ∧
    (∀ (center : Coordinate) (vel : ℕ),
      get_midi_event center std700State center vel true =
        (some (MidiEvent.noteOn 0 60 vel), std700State) ∧
      get_midi_event center std700State center vel false =
        (some (MidiEvent.noteOff 0 60 vel), std700State)) := by
  refine ⟨note_from_cents_eq_round_clamp, ?_⟩
  intro center vel
  have hpitch : get_key_pitch center std700State.fifth_size center = 6000 := by
    simp [get_key_pitch, calculate_fifths_offsets, PITCH_ANCHOR_CENTS]
  have hnote : note_from_cents 6000 = 60 := by
    norm_num [note_from_cents, rust_f32_as_u8]
    rfl
  constructor
  · rw [gme_std_press_12tet center std700State center vel rfl rfl, hpitch, hnote]
  · rw [gme_std_release_notfound_700 center std700State center vel rfl rfl rfl,
      hpitch, hnote]

/-- C3: in Standard mode with `fifth_size ≠ 700`, a press while all 15 MPE
channels are allocated returns no event and leaves the whole state — in
particular the ledger and the usage mask — exactly as it was. -/
theorem C3_press_full_allocator (center : Coordinate) (s : EngineState)
    (coord : Coordinate) (vel : ℕ) (hm : s.mode = TuningMode.Standard)
    (hfs : s.fifth_size ≠ 700)
    (hfull : ∀ j, 1 ≤ j → j < 16 → s.allocator.usage_mask.testBit j = true) :
    get_midi_event center s coord vel true = (none, s) :=
  gme_std_press_mpe_none center s coord vel s.allocator hm hfs
    (MpeVoiceAllocator.alloc_of_all_taken hfull)

/-- C3 witness: a press on the full-allocator state drops the event and
leaves the state unchanged. -/
theorem C3_witness :
    get_midi_event originC fullMaskState originC 100 true =
      (none, fullMaskState) :=
  C3_press_full_allocator originC fullMaskState originC 100 rfl (by decide)
    (by intro j h1 h2; interval_cases j <;> rfl)

/-- C9: the Standard/MPE press path updates the allocator and the ledger
together or not at all: either it returns no event and the state is exactly
the pre-press state (allocation failed), or it returns an `MpeNoteOn` and
the usage mask gains exactly the allocated channel's bit while the ledger
gains exactly the matching entry.  (The rollback branch for an
unconstructible note exists in the code but cannot fire: the computed note
is clamped to `[0, 127]`, so `Note::try_from` always succeeds.) -/
theorem C9_press_atomic (center : Coordinate) (s : EngineState)
    (coord : Coordinate) (vel : ℕ) (hm : s.mode = TuningMode.Standard)
    (hfs : s.fifth_size ≠ 700) (hlen : s.active_channels.length < 16) :
    (get_midi_event center s coord vel true = (none, s)) ∨
    (∃ (channel : Channel) (note bv : ℕ),
      1 ≤ channel.val ∧
      s.allocator.usage_mask.testBit channel.val = false ∧
      get_midi_event center s coord vel true =
        (some (MidiEvent.mpeNoteOn channel note vel bv),
         { s with
             allocator := ⟨s.allocator.usage_mask ||| (1 <<< channel.val)⟩,
             active_channels := s.active_channels ++ [(coord, channel)] })) := by
  rcases halloc : s.allocator.alloc with ⟨o, a'⟩
  rcases o with _ | c
  · exact Or.inl (gme_std_press_mpe_none center s coord vel a' hm hfs halloc)
  · obtain ⟨hc1, hcfree, hmask', _⟩ := MpeVoiceAllocator.alloc_eq_some halloc
    refine Or.inr ⟨c, note_from_cents (get_key_pitch center s.fifth_size coord),
      mpe_bend_val s.mpe_pbr (get_key_pitch center s.fifth_size coord),
      hc1, hcfree, ?_⟩
    rw [gme_std_press_mpe_some center s coord vel c a' hm hfs halloc]
    have ha : a' = ⟨s.allocator.usage_mask ||| (1 <<< c.val)⟩ := by
      rw [← MpeVoiceAllocator.eta a']
      exact MpeVoiceAllocator.mk_usage_mask_eq hmask'
    have hpush : push16 s.active_channels (coord, c) =
        s.active_channels ++ [(coord, c)] := by
      unfold push16
      rw [if_pos hlen]
    rw [ha, hpush]

/-- C9 witness: pressing on the clean Standard/microtonal state takes the
success branch with both structures updated together. -/
theorem C9_witness :
    (get_midi_event originC stdMpeState originC 100 true =
      (none, stdMpeState)) ∨
    (∃ (channel : Channel) (note bv : ℕ),
      1 ≤ channel.val ∧
      stdMpeState.allocator.usage_mask.testBit channel.val = false ∧
      get_midi_event originC stdMpeState originC 100 true =
        (some (MidiEvent.mpeNoteOn channel note 100 bv),
         { stdMpeState with
             allocator := ⟨stdMpeState.allocator.usage_mask ||| (1 <<< channel.val)⟩,
             active_channels := stdMpeState.active_channels ++ [(originC, channel)] })) :=
  C9_press_atomic originC stdMpeState originC 100 rfl (by decide) (by decide)

/-- C1 counterexample: a starting state in Standard mode with
`fifth_size = 697 ≠ 700` and a free channel, in which the pressed coordinate
already has a ledger entry.  The press-then-release sequence allocates
channel index 2 but the release removes (and frees) the pre-existing entry
on channel index 1, so the usage mask ends as bit 2 instead of bit 1: the
round trip does not preserve the mask for arbitrary starting states. -/
theorem C1_counterexample :
    c1CexState.mode = TuningMode.Standard ∧
    c1CexState.fifth_size ≠ 700 ∧
    (∃ j, 1 ≤ j ∧ j < 16 ∧ c1CexState.allocator.usage_mask.testBit j = false) ∧
    (get_midi_event originC
        ((get_midi_event originC c1CexState originC 100 true).2) originC 100
        false).2.allocator.usage_mask ≠ c1CexState.allocator.usage_mask := by
  refine ⟨rfl, by decide, ⟨2, by decide, by decide, by decide⟩, ?_⟩
  have halloc : c1CexState.allocator.alloc = (some 2, ⟨6⟩) := by decide
  rw [gme_std_press_mpe_some originC c1CexState originC 100 2 ⟨6⟩ rfl
    (by decide) halloc]
  have hfind : find_active originC
      (push16 c1CexState.active_channels (originC, 2)) =
      some ((originC, 1), [(originC, 2)]) := by decide
  rw [gme_std_release_found originC _ originC 100 (originC, 1) [(originC, 2)]
    rfl hfind]
  decide

/-- C1 (amended): the Standard/MPE press-then-release round trip preserves
the usage mask whenever, in addition to the claim's hypotheses (Standard
mode, `fifth_size ≠ 700`, at least one free channel), the pressed coordinate
has no pre-existing ledger entry and the ledger is not full. -/
theorem C1_amended_round_trip (center : Coordinate) (s : EngineState)
    (coord : Coordinate) (vel : ℕ)
    (hm : s.mode = TuningMode.Standard) (hfs : s.fifth_size ≠ 700)
    (hfree : ∃ j, 1 ≤ j ∧ j < 16 ∧ s.allocator.usage_mask.testBit j = false)
    (hmask : s.allocator.usage_mask < 65536)
    (hcoord : ∀ e ∈ s.active_channels, e.1 ≠ coord)
    (hlen : s.active_channels.length < 16) :
    (get_midi_event center
        ((get_midi_event center s coord vel true).2) coord vel
        false).2.allocator.usage_mask = s.allocator.usage_mask := by
  obtain ⟨j, hj1, hj16, hjfree⟩ := hfree
  obtain ⟨c, a', halloc⟩ := MpeVoiceAllocator.alloc_of_free_bit j hj1 hj16 hjfree
  obtain ⟨hc1, hcfree, hmask', _⟩ := MpeVoiceAllocator.alloc_eq_some halloc
  rw [gme_std_press_mpe_some center s coord vel c a' hm hfs halloc]
  have hpush : push16 s.active_channels (coord, c) =
      s.active_channels ++ [(coord, c)] := by
    unfold push16
    rw [if_pos hlen]
  have hfind : find_active coord (push16 s.active_channels (coord, c)) =
      some ((coord, c), s.active_channels) := by
    rw [hpush]
    exact find_active_concat (coord, c) hcoord rfl
  rw [gme_std_release_found center
    { s with allocator := a',
             active_channels := push16 s.active_channels (coord, c) }
    coord vel (coord, c) s.active_channels hm hfind]
  show (a'.free c).usage_mask = s.allocator.usage_mask
  have ha : a' = ⟨s.allocator.usage_mask ||| (1 <<< c.val)⟩ := by
    rw [← MpeVoiceAllocator.eta a']
    exact MpeVoiceAllocator.mk_usage_mask_eq hmask'
  rw [ha, MpeVoiceAllocator.free_alloc_restore s.allocator c hc1 hcfree hmask]

/-- C1 witness: the amended round trip on the clean Standard/microtonal
state leaves the empty usage mask empty. -/
theorem C1_witness :
    (get_midi_event originC
        ((get_midi_event originC stdMpeState originC 100 true).2) originC 100
        false).2.allocator.usage_mask = stdMpeState.allocator.usage_mask :=
  C1_amended_round_trip originC stdMpeState originC 100 rfl (by decide)
    ⟨1, by decide, by decide, by decide⟩ (by decide)
    (by intro e he; simp [stdMpeState] at he) (by decide)

/-- C7 counterexample: an `MpeNoteOn` whose `pitch_bend` field exceeds
16383 (a representable `u16` value) is transmitted with the clamped value
16383, not with the event's own value. -/
theorem C7_counterexample :
    encode_event (MidiEvent.mpeNoteOn 0 60 100 16384) ≠
      [MidiMessage.pitchBendChange 0 16384, MidiMessage.noteOn 0 60 100] := by
  decide

/-- C7 (amended): the outbound encoder turns every `MpeNoteOn` into exactly
two messages in order — a `PitchBendChange` carrying the event's
`pitch_bend` value clamped to `[0, 16383]`, then the `NoteOn` — both on the
event's channel; and every plain `NoteOn` into a
`PitchBendChange{channel, 8192}` (center) followed by the `NoteOn`. -/
theorem C7_amended_encoder :
    (∀ (ch : Channel) (note vel pb : ℕ),
      encode_event (MidiEvent.mpeNoteOn ch note vel pb) =
        [MidiMessage.pitchBendChange ch (min pb 16383),
         MidiMessage.noteOn ch note vel]) ∧
    (∀ (ch : Channel) (note vel : ℕ),
      encode_event (MidiEvent.noteOn ch note vel) =
        [MidiMessage.pitchBendChange ch 8192,
         MidiMessage.noteOn ch note vel]) :=
  ⟨fun _ _ _ _ => rfl, fun _ _ _ => rfl⟩

/-- C8: a Control-Change with controller 120 or 123 empties the Remote-Voice
Ledger from every state; the Note-On(ch1, 60, 100) then CC(ch1, 123)
scenario from the empty ledger ends empty; and a Note-Off or a Note-On with
velocity 0 removes exactly the entries matching `(channel, note)` (stated
via occurrence counts: matching voices drop to 0, all others are kept). -/
theorem C8_inbound_clear_and_remove :
    (∀ (s : RemoteState) (ch : Channel) (cc v : ℕ), cc = 120 ∨ cc = 123 →
      (process_remote_midi (MidiMessage.controlChange ch cc v) s).voices = []) ∧
    ((process_remote_midi (MidiMessage.controlChange 0 123 0)
        (process_remote_midi (MidiMessage.noteOn 0 60 100) initRemote)).voices
      = []) ∧
    (∀ (s : RemoteState) (ch : Channel) (note vel : ℕ) (v : RemoteVoice),
      ((process_remote_midi (MidiMessage.noteOff ch note vel) s).voices.count v
        = if v.channel = ch ∧ v.note = note then 0 else s.voices.count v) ∧
      ((process_remote_midi (MidiMessage.noteOn ch note 0) s).voices.count v
        = if v.channel = ch ∧ v.note = note then 0 else s.voices.count v)) := by
  have hcount : ∀ (l : List RemoteVoice) (ch : Channel) (note : ℕ)
      (v : RemoteVoice),
      (l.filter fun w => !(w.channel == ch && w.note == note)).count v =
        if v.channel = ch ∧ v.note = note then 0 else l.count v := by
    intro l ch note v
    by_cases hv : v.channel = ch ∧ v.note = note
    · rw [if_pos hv]
      rw [List.count_eq_zero]
      intro hmem
      have := List.of_mem_filter hmem
      simp [hv.1, hv.2] at this
    · rw [if_neg hv]
      apply List.count_filter
      rcases not_and_or.mp hv with h | h <;> simp [h]
  refine ⟨?_, by decide, ?_⟩
  · intro s ch cc v h
    rcases h with rfl | rfl <;> simp [process_remote_midi]
  · intro s ch note vel v
    exact ⟨hcount s.voices ch note v, hcount s.voices ch note v⟩

/-- C8 witness: CC 123 on the empty ledger leaves it empty. -/
theorem C8_witness :
    (process_remote_midi (MidiMessage.controlChange 0 123 0) initRemote).voices
      = [] :=
  C8_inbound_clear_and_remove.1 initRemote 0 123 0 (Or.inr rfl)

/-- Lemma: `update_first` rewrites exactly the first element satisfying the
predicate. -/
theorem update_first_append (p : RemoteVoice → Bool)
    (f : RemoteVoice → RemoteVoice) (A B : List RemoteVoice)
    (v₀ : RemoteVoice) (hA : ∀ v ∈ A, p v = false) (hv : p v₀ = true) :
    update_first p f (A ++ v₀ :: B) = A ++ f v₀ :: B := by
  induction A with
  | nil =>
    simp only [List.nil_append, update_first, hv, if_pos]
  | cons a A ih =>
    have ha : p a = false := hA a (List.mem_cons_self a A)
    simp only [List.cons_append, update_first, ha, Bool.false_eq_true,
      if_neg, ite_false]
    exact congrArg (a :: ·) (ih (fun v hvmem => hA v (List.mem_cons_of_mem a hvmem)))

/-- C10: a Note-On with velocity > 0 initializes (or refreshes) the voice's
`pitch_bend` from the Channel-Bend Table's last-known value for the event's
channel — on insertion of a fresh voice, on in-place update of an existing
voice, and in particular a Pitch-Bend-Change received before the Note-On is
reflected in the newly created voice instead of being reset to center. -/
theorem C10_noteon_bend_from_table :
    (∀ (s : RemoteState) (ch : Channel) (note vel : ℕ), 0 < vel →
      (∀ v ∈ s.voices, ¬(v.channel = ch ∧ v.note = note)) →
      s.voices.length < 32 →
      (process_remote_midi (MidiMessage.noteOn ch note vel) s).voices =
        s.voices ++ [⟨ch, note, vel, s.bends ch⟩]) ∧
    (∀ (s : RemoteState) (ch : Channel) (note vel : ℕ)
        (A B : List RemoteVoice) (v₀ : RemoteVoice), 0 < vel →
      s.voices = A ++ v₀ :: B →
      (∀ v ∈ A, ¬(v.channel = ch ∧ v.note = note)) →
      v₀.channel = ch → v₀.note = note →
      (process_remote_midi (MidiMessage.noteOn ch note vel) s).voices =
        A ++ { v₀ with velocity := vel, pitch_bend := s.bends ch } :: B) ∧
    (∀ (ch : Channel) (note vel b : ℕ), 0 < vel →
      (process_remote_midi (MidiMessage.noteOn ch note vel)
        (process_remote_midi (MidiMessage.pitchBendChange ch b)
          initRemote)).voices = [⟨ch, note, vel, b⟩]) := by
  refine ⟨?_, ?_, ?_⟩
  · intro s ch note vel hvel hnone hlen
    have hany : s.voices.any (fun v => v.channel == ch && v.note == note)
        = false := by
      rw [List.any_eq_false]
      intro v hvmem
      have := hnone v hvmem
      simp only [Bool.and_eq_true, beq_iff_eq]
      exact fun hc => this ⟨hc.1, hc.2⟩
    simp only [process_remote_midi, if_pos hvel, hany, Bool.false_eq_true,
      ite_false, if_pos hlen]
  · intro s ch note vel A B v₀ hvel hsplit hA hch hnote
    have hp : (fun v => v.channel == ch && v.note == note) v₀ = true := by
      simp [hch, hnote]
    have hany : s.voices.any (fun v => v.channel == ch && v.note == note)
        = true := by
      rw [hsplit, List.any_eq_true]
      exact ⟨v₀, by simp, hp⟩
    have hAfalse : ∀ v ∈ A,
        (fun w => w.channel == ch && w.note == note) v = false := by
      intro v hvmem
      rcases not_and_or.mp (hA v hvmem) with h | h <;> simp [h]
    simp only [process_remote_midi, if_pos hvel, hany, ite_true]
    rw [hsplit, update_first_append _ _ A B v₀ hAfalse hp]
  · intro ch note vel b hvel
    simp [process_remote_midi, initRemote, if_pos hvel]

/-- C10 witness: a pitch bend of 5000 received on a channel before a Note-On
ends up in the created voice. -/
theorem C10_witness :
    (process_remote_midi (MidiMessage.noteOn 0 60 100)
      (process_remote_midi (MidiMessage.pitchBendChange 0 5000)
        initRemote)).voices = [⟨0, 60, 100, 5000⟩] :=
  C10_noteon_bend_from_table.2.2 0 60 100 5000 (by decide)

/-- In a list whose `f`-image is duplicate-free, no element left after
erasing position `i` shares its `f`-image with the erased element. -/
theorem map_ne_of_nodup_eraseIdx {α β : Type _} (f : α → β) (l : List α)
    (i : ℕ) (hi : i < l.length) (hn : (l.map f).Nodup) :
    ∀ x ∈ l.eraseIdx i, f x ≠ f (l.get ⟨i, hi⟩) := by
  have hl : l = l.take i ++ l.get ⟨i, hi⟩ :: l.drop (i + 1) := by
    rw [List.get_eq_getElem, ← List.drop_eq_getElem_cons hi,
      List.take_append_drop]
  have hn2 : ((l.take i ++ l.get ⟨i, hi⟩ :: l.drop (i + 1)).map f).Nodup :=
    hl ▸ hn
  rw [List.map_append, List.map_cons, List.nodup_append] at hn2
  obtain ⟨_, hcons, hdisj⟩ := hn2
  rw [List.nodup_cons] at hcons
  intro x hx
  rw [List.eraseIdx_eq_take_drop_succ] at hx
  rcases List.mem_append.mp hx with hxa | hxd
  · intro heq
    exact hdisj (List.mem_map_of_mem f hxa) (heq ▸ List.mem_cons_self _ _)
  · intro heq
    exact hcons.1 (heq ▸ List.mem_map_of_mem f hxd)

/-- The Active-Voice Ledger invariant holds at power-up. -/
theorem engineInv_init : EngineInv initState := by
  refine ⟨List.nodup_nil, List.nodup_nil, ?_⟩
  intro e he
  cases he

/-- One restricted step preserves the Active-Voice Ledger invariant. -/
theorem goodStep_inv {center : Coordinate} {s s' : EngineState}
    (hInv : EngineInv s) (h : GoodStep center s s') : EngineInv s' := by
  obtain ⟨hfst, hsnd, hmem⟩ := hInv
  cases h with
  | press coord vel hfresh =>
    rcases hmode : s.mode with _ | _
    · -- Standard mode
      by_cases hfs : s.fifth_size = 700
      · rw [gme_std_press_12tet center s coord vel hmode hfs]
        exact ⟨hfst, hsnd, hmem⟩
      · rcases halloc : s.allocator.alloc with ⟨o, a'⟩
        rcases o with _ | c
        · rw [gme_std_press_mpe_none center s coord vel a' hmode hfs halloc]
          exact ⟨hfst, hsnd, hmem⟩
        · rw [gme_std_press_mpe_some center s coord vel c a' hmode hfs halloc]
          obtain ⟨hc1, hcfree, hmask', _⟩ :=
            MpeVoiceAllocator.alloc_eq_some halloc
          have hbit : ∀ j, s.allocator.usage_mask.testBit j = true →
              a'.usage_mask.testBit j = true := by
            intro j hj
            rw [hmask', testBit_lor_shift, hj]
            rfl
          have hcnew : a'.usage_mask.testBit c.val = true := by
            rw [hmask', testBit_lor_shift]
            simp
          have hcnotin : ∀ e ∈ s.active_channels, e.2 ≠ c := by
            intro e he heq
            rw [(heq ▸ (hmem e he).2 : s.allocator.usage_mask.testBit c.val = true)]
              at hcfree
            cases hcfree
          unfold push16
          by_cases hlen : s.active_channels.length < 16
          · rw [if_pos hlen]
            refine ⟨?_, ?_, ?_⟩
            · simp only [List.map_append, List.map_cons, List.map_nil]
              rw [(List.perm_append_singleton _ _).nodup_iff, List.nodup_cons]
              refine ⟨?_, hfst⟩
              intro hc
              obtain ⟨e, he, heq⟩ := List.mem_map.mp hc
              exact hfresh e he heq
            · simp only [List.map_append, List.map_cons, List.map_nil]
              rw [(List.perm_append_singleton _ _).nodup_iff, List.nodup_cons]
              refine ⟨?_, hsnd⟩
              intro hc
              obtain ⟨e, he, heq⟩ := List.mem_map.mp hc
              exact hcnotin e he heq
            · intro e he
              rcases List.mem_append.mp he with hold | hnew
              · exact ⟨(hmem e hold).1, hbit _ (hmem e hold).2⟩
              · rcases List.mem_singleton.mp hnew with rfl
                exact ⟨hc1, hcnew⟩
          · rw [if_neg hlen]
            exact ⟨hfst, hsnd, fun e he =>
              ⟨(hmem e he).1, hbit _ (hmem e he).2⟩⟩
    · -- Fifths mode
      rw [gme_fifths_state center s coord vel true hmode]
      exact ⟨hfst, hsnd, hmem⟩
  | release coord vel =>
    rcases hmode : s.mode with _ | _
    · rcases hfind : find_active coord s.active_channels with _ | ⟨e, l2⟩
      · by_cases hfs : s.fifth_size = 700
        · rw [gme_std_release_notfound_700 center s coord vel hmode hfind hfs]
          exact ⟨hfst, hsnd, hmem⟩
        · rw [gme_std_release_notfound_other center s coord vel hmode hfind hfs]
          exact ⟨hfst, hsnd, hmem⟩
      · rw [gme_std_release_found center s coord vel e l2 hmode hfind]
        obtain ⟨i, hi, hei, hperm⟩ := find_active_eq_some hfind
        replace hei : e = s.active_channels.get ⟨i, hi⟩ := hei
        replace hperm : l2.Perm (s.active_channels.eraseIdx i) := hperm
        have hmem2 : ∀ x ∈ l2, x ∈ s.active_channels := by
          intro x hx
          exact (List.eraseIdx_sublist s.active_channels i).mem
            (hperm.mem_iff.mp hx)
        have hein : e ∈ s.active_channels := by
          rw [hei]
          exact List.get_mem _ _ hi
        have hepos : 1 ≤ e.2.val := (hmem e hein).1
        have hne : ∀ x ∈ l2, x.2 ≠ e.2 := by
          intro x hx heq
          have hx2 := map_ne_of_nodup_eraseIdx Prod.snd s.active_channels i hi
            hsnd x (hperm.mem_iff.mp hx)
          rw [← hei] at hx2
          exact hx2 heq
        refine ⟨?_, ?_, ?_⟩
        · have : (l2.map Prod.fst).Perm
              ((s.active_channels.eraseIdx i).map Prod.fst) := hperm.map _
          rw [this.nodup_iff]
          exact hfst.sublist ((List.eraseIdx_sublist _ i).map _)
        · have : (l2.map Prod.snd).Perm
              ((s.active_channels.eraseIdx i).map Prod.snd) := hperm.map _
          rw [this.nodup_iff]
          exact hsnd.sublist ((List.eraseIdx_sublist _ i).map _)
        · intro x hx
          refine ⟨(hmem x (hmem2 x hx)).1, ?_⟩
          rw [MpeVoiceAllocator.free_testBit _ _ _ hepos,
            (hmem x (hmem2 x hx)).2]
          have hvne : e.2.val ≠ x.2.val := by
            intro heq
            exact hne x hx (Fin.val_injective heq).symm
          simp [x.2.isLt, hvne]
    · rw [gme_fifths_state center s coord vel false hmode]
      exact ⟨hfst, hsnd, hmem⟩
  | toggle => exact ⟨hfst, hsnd, hmem⟩
  | adjust_fifth delta => exact ⟨hfst, hsnd, hmem⟩
  | adjust_pbr delta => exact ⟨hfst, hsnd, hmem⟩
  | alloc_op =>
    rcases halloc : s.allocator.alloc with ⟨o, a'⟩
    rcases o with _ | c
    · obtain ⟨rfl, -⟩ := MpeVoiceAllocator.alloc_eq_none halloc
      exact ⟨hfst, hsnd, fun e he => ⟨(hmem e he).1, (hmem e he).2⟩⟩
    · obtain ⟨-, -, hmask', -⟩ := MpeVoiceAllocator.alloc_eq_some halloc
      refine ⟨hfst, hsnd, fun e he => ⟨(hmem e he).1, ?_⟩⟩
      show a'.usage_mask.testBit e.2.val = true
      rw [hmask', testBit_lor_shift, (hmem e he).2]
      rfl

/-- Every state reachable under the restricted step relation satisfies the
ledger invariant. -/
theorem goodReachable_inv {center : Coordinate} {s : EngineState}
    (h : GoodReachable center s) : EngineInv s := by
  induction h with
  | init => exact engineInv_init
  | step _ hstep ih => exact goodStep_inv ih hstep

/-- C2 counterexample: from the power-up state, a mode toggle followed by
two presses of the same coordinate (an unrestricted `get_midi_event`
sequence) reaches a state whose ActiveChannelMap holds the coordinate
twice, violating the claimed at-most-once invariant. -/
theorem C2_counterexample :
    Reachable originC c2CexState ∧
      ¬ (c2CexState.active_channels.map Prod.fst).Nodup := by
  constructor
  · have h1 : (get_midi_event originC stdMpeState originC 100 true).2 =
        { mode := TuningMode.Standard, fifth_size := 697, mpe_pbr := 1,
          allocator := ⟨2⟩, active_channels := [(originC, 1)] } := by
      rw [gme_std_press_mpe_some originC stdMpeState originC 100 1 ⟨2⟩ rfl
        (by decide) (by decide)]
      decide
    have h2 : (get_midi_event originC
        { mode := TuningMode.Standard, fifth_size := 697, mpe_pbr := 1,
          allocator := ⟨2⟩, active_channels := [(originC, 1)] }
        originC 100 true).2 = c2CexState := by
      rw [gme_std_press_mpe_some originC
        { mode := TuningMode.Standard, fifth_size := 697, mpe_pbr := 1,
          allocator := ⟨2⟩, active_channels := [(originC, 1)] }
        originC 100 2 ⟨6⟩ rfl (by decide) (by decide)]
      decide
    have r0 : Reachable originC stdMpeState :=
      Reachable.step Reachable.init (EngineStep.toggle initState)
    have r1 := Reachable.step r0 (EngineStep.press stdMpeState originC 100)
    rw [h1] at r1
    have r2 := Reachable.step r1 (EngineStep.press _ originC 100)
    rw [h2] at r2
    exact r2
  · decide

/-- C2 (amended): in every state reachable from the power-up state by
`get_midi_event` presses of coordinates not currently in the ledger,
arbitrary releases, tunable mutations and direct `alloc()` calls (direct
`free()` calls, which can unmark a channel the ledger still references, are
excluded), each coordinate appears at most once in the ActiveChannelMap and
every channel stored in a ledger entry has its bit set in the allocator's
usage mask. -/
theorem C2_ledger_invariant (center : Coordinate) (s : EngineState)
    (h : GoodReachable center s) :
    (s.active_channels.map Prod.fst).Nodup ∧
    ∀ e ∈ s.active_channels,
      s.allocator.usage_mask.testBit e.2.val = true := by
  obtain ⟨hfst, _, hmem⟩ := goodReachable_inv h
  exact ⟨hfst, fun e he => (hmem e he).2⟩

/-- C2 witness: the invariant holds at the power-up state itself. -/
theorem C2_witness :
    (initState.active_channels.map Prod.fst).Nodup ∧
    ∀ e ∈ initState.active_channels,
      initState.allocator.usage_mask.testBit e.2.val = true :=
  C2_ledger_invariant originC initState GoodReachable.init
